import Mathlib

/-!
Verification of the `rhmap` Robin Hood hash index (`rhmap.h`, the
iter-based copy in the repository) against its natural-language
specification.

Modelling conventions (shallow embedding):

* `uint32_t` values are `Nat`s; wraparound is written explicitly as
  `% 2^32` at the operations where the C code can overflow.
* Bit operations on entry words are translated to arithmetic on `Nat`:
  for a table of `N = mask + 1` buckets (`N` a power of two in every
  rehashed state) we have `x & mask = x % N`, `x & ~mask`-equality of two
  words is `x / N = y / N`, `e >> 28 = e / 2^28`, `e & 0x0fffffff =
  e % 2^28`, and `a | probe << 28 = a + probe * 2^28` (the packed fields
  are disjoint: `a < 2^28`, `probe ≤ 15`).  A wrapping `uint32_t`
  subtraction `x - 1` is written `(x + (2^32 - 1)) % 2^32`; combined with
  `& mask` it is `(x + (2^32 - 1)) % (mask + 1)`, since `mask + 1`
  divides `2^32` in every rehashed state.
* `float`/`double` load-factor arithmetic is modelled exactly: every
  `float` is a rational, kept as a numerator/denominator pair of `Nat`s;
  the C constant `0.8f` is exactly `13421773 / 16777216`.  The two
  places that consume it are modelled by exact rational arithmetic
  followed by the C `(uint32_t)` truncation:
  `(uint32_t)((double)n * lf)` is `n * num / den` (`Nat` division), and
  `(uint32_t)((double)s / lf - 0.5)` is `(2*s*den - num) / (2*num)`
  when `2*s*den > num` and `0` otherwise (truncation toward zero of a
  value in `(-1, 0]` is `0`).  The double rounding of the intermediate
  quotient is not modelled; for the magnitudes exercised here the double
  computation is exact.
* Memory reads are `List` lookups returning `Option`; an out-of-bounds
  read (including any dereference of the null `entries` array of a
  zero-initialised map) makes the whole operation return `none`.
* The unbounded `for (;;)` loops of the C code take an explicit fuel
  argument; exhausting the fuel also returns `none`.
-/

set_option maxRecDepth 400000

/-- An exactly represented `float` value in `[0, ∞)`: numerator and
denominator (`den > 0` in every value this development builds). -/
structure Lf where
  num : ℕ
  den : ℕ
  deriving DecidableEq, Repr

/-- The `rhmap` struct of `rhmap.h`: `entries` is the bucket array of
`mask + 1` packed words, `hashes` maps element indices back to (masked)
hashes, `size`/`capacity` count elements, `load_factor` is the caller's
load factor (0 meaning "use the default"). -/
structure Rhmap where
  entries : List ℕ
  hashes : List ℕ
  mask : ℕ
  capacity : ℕ
  size : ℕ
  load_factor : Lf
  deriving DecidableEq, Repr

/-- The float `0.0f` (the unset load factor). -/
def lfZero : Lf := ⟨0, 1⟩

/-- `rhmap_init` / zero initialisation: null arrays, all counters zero. -/
def rhmap_init : Rhmap :=
  { entries := [], hashes := [], mask := 0, capacity := 0, size := 0, load_factor := lfZero }

/-- RHMAP_DEFAULT_LOAD_FACTOR is the C `float` literal `0.8f`, whose exact
value is `13421773 / 2^24`. -/
def defaultLoadFactor : Lf := ⟨13421773, 16777216⟩

/-- The load factor actually used by the sizing functions: the stored one,
or the default when the stored one is zero (`load_factor == 0.0f` holds
exactly when the numerator is zero). -/
def effLoadFactor (lf : Lf) : Lf := if lf.num = 0 then defaultLoadFactor else lf

/-- `(uint32_t)((double)n * load_factor)`: the exact product `n * lf`
truncated to an integer, i.e. `n * num / den` in `Nat` division. -/
def floorMulLf (n : ℕ) (lf : Lf) : ℕ := n * lf.num / lf.den

/-- `(uint32_t)((double)s / load_factor - 0.5)`: the exact value
`s/lf - 1/2 = (2*s*den - num) / (2*num)` truncated toward zero (`0`
whenever the value is not positive). -/
def truncDivLfSubHalf (s : ℕ) (lf : Lf) : ℕ :=
  if 2 * s * lf.den ≤ lf.num then 0 else (2 * s * lf.den - lf.num) / (2 * lf.num)

/-- `rhmap_find`: walk forward from the home bucket, returning
`some (some (scan, index))` on a potential match, `some none` when the
Robin Hood early-exit condition fires (no further candidate), and `none`
on an out-of-bounds read or fuel exhaustion.  Mirrors the C loop,
including the `mask == ~0u` guard. -/
def rhmap_findLoop (es : List ℕ) (N hash28 : ℕ) (scan : ℕ) : ℕ → Option (Option (ℕ × ℕ))
  | 0 => none
  | fuel + 1 => do
    let entry ← es[(hash28 + scan) % N]?
    let scan1 := scan + 1
    let probe := min scan1 15
    let ref := hash28 + probe * 2 ^ 28
    if entry / N = ref / N then
      some (some (scan1, entry % N))
    else if entry / 2 ^ 28 < probe then
      some none
    else
      rhmap_findLoop es N hash28 scan1 fuel

/-- Entry point of `rhmap_find`: masks the hash to 28 bits and checks
`mask == ~0u` before entering the scan loop. -/
def rhmap_find (s : Rhmap) (hash scan : ℕ) (fuel : ℕ) : Option (Option (ℕ × ℕ)) :=
  let hash28 := hash % 2 ^ 28
  if s.mask = 2 ^ 32 - 1 then some none
  else rhmap_findLoop s.entries (s.mask + 1) hash28 scan fuel

/-- Result of one `rhmap_insert` call: `found` is the C return value 1
(potential match, with the updated `iter->scan` and the candidate index),
`inserted` is the C return value 0 (element placed at the given fresh
index). -/
inductive InsRes where
  | found (scan index : ℕ)
  | inserted (index : ℕ)
  deriving DecidableEq, Repr

/-- Outcome of the first `for (;;)` loop of `rhmap_insert`. -/
inductive ScanOutcome where
  | found (scan index : ℕ)
  | placed (entries : List ℕ)
  | displaced (entries : List ℕ) (ins scan ix : ℕ)
  deriving DecidableEq, Repr

/-- Resolution of a slot's probe distance in `rhmap_insert`:
`slot_scan = entry >> 28`, and when that reads 15 the code recomputes
`(ix - hashes[ix]) & mask` — indexing `hashes` by the BUCKET `ix`
(this is the code as written; see `insertResolveSpec` for the
specification's version). -/
def insertResolveCode (N : ℕ) (hashes : List ℕ) (ix entry : ℕ) : Option ℕ :=
  let s0 := entry / 2 ^ 28
  if s0 = 15 then do
    let h ← hashes[ix]?
    pure ((ix + N - h % N) % N)
  else pure s0

/-- Modelled from the spec: the specification says the clamped probe
distance is recomputed as `(bucket - hashes[decoded_index]) mod N`, i.e.
`hashes` is indexed by the entry's decoded element index `entry & mask`,
not by the bucket position.  Used only to compare against
`insertResolveCode`. -/
def insertResolveSpec (N : ℕ) (hashes : List ℕ) (ix entry : ℕ) : Option ℕ :=
  let s0 := entry / 2 ^ 28
  if s0 = 15 then do
    let h ← hashes[entry % N]?
    pure ((ix + N - h % N) % N)
  else pure s0

/-- First loop of `rhmap_insert`: scan from the home bucket; report a
potential match, place the new entry into an empty slot, or displace a
resident whose (resolved) probe distance is smaller than the current
scan.  `resolve` is the probe-distance resolution function (the code's
bucket-indexed one, or the spec's index-resolved one). -/
def insertScanLoop (resolve : ℕ → List ℕ → ℕ → ℕ → Option ℕ)
    (N hash28 ins : ℕ) (hashes : List ℕ) (entries : List ℕ) (scan : ℕ) :
    ℕ → Option ScanOutcome
  | 0 => none
  | fuel + 1 => do
    let ix := (hash28 + scan) % N
    let scan1 := scan + 1
    let entry ← entries[ix]?
    let probe := min scan1 15
    let ref := hash28 + probe * 2 ^ 28
    if entry / N = ref / N then
      some (.found scan1 (entry % N))
    else if entry = 0 then
      some (.placed (entries.set ix (ins + probe * 2 ^ 28)))
    else do
      let slotScan ← resolve N hashes ix entry
      if slotScan < scan1 then
        some (.displaced (entries.set ix (ins + probe * 2 ^ 28)) (entry % 2 ^ 28) slotScan ix)
      else
        insertScanLoop resolve N hash28 ins hashes entries scan1 fuel

/-- Second loop of `rhmap_insert`: carry the displaced entry forward,
swapping it with any resident that has scanned less, until an empty slot
is found. -/
def insertShiftLoop (resolve : ℕ → List ℕ → ℕ → ℕ → Option ℕ)
    (N : ℕ) (hashes : List ℕ) (ins scan ix : ℕ) (entries : List ℕ) :
    ℕ → Option (List ℕ)
  | 0 => none
  | fuel + 1 => do
    let ix1 := (ix + 1) % N
    let scan1 := scan + 1
    let entry ← entries[ix1]?
    let probe := min scan1 15
    if entry = 0 then
      some (entries.set ix1 (ins + probe * 2 ^ 28))
    else do
      let slotScan ← resolve N hashes ix1 entry
      if slotScan < scan1 then
        insertShiftLoop resolve N hashes (entry % 2 ^ 28) slotScan ix1
          (entries.set ix1 (ins + probe * 2 ^ 28)) fuel
      else
        insertShiftLoop resolve N hashes ins scan1 ix1 entries fuel

/-- One call of `rhmap_insert`, parameterised by the probe-resolution
function.  The value to insert is `insert = (hash & ~mask) | map->size`;
in both success branches the C code executes `hashes[map->size] = hash;
*index = map->size++;` which is modelled here at the top level. -/
def rhmap_insertCore (resolve : ℕ → List ℕ → ℕ → ℕ → Option ℕ)
    (s : Rhmap) (hash scan fuel : ℕ) : Option (Rhmap × InsRes) := do
  let N := s.mask + 1
  let hash28 := hash % 2 ^ 28
  let ins := hash28 / N * N + s.size
  match ← insertScanLoop resolve N hash28 ins s.hashes s.entries scan fuel with
  | .found sc idx => some (s, .found sc idx)
  | .placed es =>
      some ({ s with
                entries := es,
                hashes := s.hashes.set s.size hash28,
                size := s.size + 1 }, .inserted s.size)
  | .displaced es ins1 sc ix => do
      let es1 ← insertShiftLoop resolve N s.hashes ins1 sc ix es fuel
      some ({ s with
                entries := es1,
                hashes := s.hashes.set s.size hash28,
                size := s.size + 1 }, .inserted s.size)

/-- `rhmap_insert` exactly as the code is written (bucket-indexed probe
resolution). -/
def rhmap_insert (s : Rhmap) (hash scan fuel : ℕ) : Option (Rhmap × InsRes) :=
  rhmap_insertCore insertResolveCode s hash scan fuel

/-- `rhmap_insert` with the probe resolution the specification
describes (`hashes[decoded_index]`); for comparison only. -/
def rhmap_insertSpecResolve (s : Rhmap) (hash scan fuel : ℕ) : Option (Rhmap × InsRes) :=
  rhmap_insertCore insertResolveSpec s hash scan fuel

/-- Drive `rhmap_insert` until it returns 0 (the documented usage
`while (rhmap_insert(&iter, &ix)) { }` for a key distinct from all
present keys, and the loop used by `rhmap_rehash`).  Returns the final
state and the fresh element index. -/
def insertUntilDone (s : Rhmap) (hash scan : ℕ) : ℕ → Option (Rhmap × ℕ)
  | 0 => none
  | fuel + 1 => do
    match ← rhmap_insert s hash scan fuel with
    | (s1, .inserted i) => some (s1, i)
    | (s1, .found sc _) => insertUntilDone s1 hash sc fuel

/-- Shift-back loop of `rhmap_remove`: starting at the removed bucket
`ix`, pull each successor entry back by one bucket, decrementing its
probe field (recomputing via `hashes[entry & mask]` when the field is
clamped at 15), until the successor is empty or in its home bucket
(`entry < 0x20000000`).  Returns the updated entries and the final `ix`
(which the caller clears). -/
def removeShiftLoop (N : ℕ) (hashes : List ℕ) (ix : ℕ) (entries : List ℕ) :
    ℕ → Option (List ℕ × ℕ)
  | 0 => none
  | fuel + 1 => do
    let ix1 := (ix + 1) % N
    let entry ← entries[ix1]?
    if entry < 2 ^ 29 then
      some (entries, ix)
    else if entry < 15 * 2 ^ 28 then
      removeShiftLoop N hashes ix1 (entries.set ix (entry - 2 ^ 28)) fuel
    else do
      let h ← hashes[entry % N]?
      let probe := min ((ix1 + N - h % N) % N) 15
      removeShiftLoop N hashes ix1 (entries.set ix (entry % 2 ^ 28 + probe * 2 ^ 28)) fuel

/-- Search loop of the tail-swap in `rhmap_remove`: scan forward from
bucket `ix` for the entry whose decoded index equals `target`. -/
def findEntryWithIndex (N target : ℕ) (entries : List ℕ) (ix : ℕ) : ℕ → Option ℕ
  | 0 => none
  | fuel + 1 => do
    let entry ← entries[ix]?
    if entry % N = target then some ix
    else findEntryWithIndex N target entries ((ix + 1) % N) fuel

/-- `rhmap_remove`: called with an iterator one past a found entry
(`scan ≥ 1`).  Decrements `size` (with uint32 wraparound), shifts the
collision chain back, clears the end of the chain, and — when the
removed element is not the last one — performs the index-renaming
tail swap.  Returns the new state together with `some (dst, src)` when
the C function returns 1 (writing `*dst`/`*src`), `none` for return 0. -/
def rhmap_remove (s : Rhmap) (hash scan fuel : ℕ) : Option (Rhmap × Option (ℕ × ℕ)) := do
  let N := s.mask + 1
  let ix0 := (hash + scan + (2 ^ 32 - 1)) % N
  let e0 ← s.entries[ix0]?
  let removedDst := e0 % N
  let sz1 := (s.size + (2 ^ 32 - 1)) % 2 ^ 32
  let (es1, ixEnd) ← removeShiftLoop N s.hashes ix0 s.entries fuel
  let es2 := es1.set ixEnd 0
  if removedDst < sz1 then do
    let swapHash ← s.hashes[(sz1 + (2 ^ 32 - 1)) % 2 ^ 32]?
    let hs1 := s.hashes.set removedDst swapHash
    let ixF ← findEntryWithIndex N sz1 es2 (swapHash % N) fuel
    let eF ← es2[ixF]?
    let es3 := es2.set ixF (eF / N * N + removedDst)
    some ({ s with entries := es3, hashes := hs1, size := sz1 }, some (removedDst, sz1))
  else
    some ({ s with entries := es2, size := sz1 }, none)

/-- The `(x + 7) & ~7u` of the sizing functions: round the 32-bit value
`x + 7` down to a multiple of 8 (clearing the low three bits of a
`uint32_t` is subtracting its remainder mod 8). -/
def alignAlloc (x : ℕ) : ℕ := (x + 7) % 2 ^ 32 / 8 * 8

/-- One `v |= v >> s` step of the round-up-to-power-of-two bit trick. -/
def orShift (x s : ℕ) : ℕ := x ||| x >>> s

/-- The five shift-or steps of the round-up-to-power-of-two bit trick
(applied to `v` after the initial decrement). -/
def roundCascade (w : ℕ) : ℕ :=
  orShift (orShift (orShift (orShift (orShift w 1) 2) 4) 8) 16

/-- The complete `v--; v |= v >> 1; ...; v++` round-up-to-power-of-two
computation on a `uint32_t`. -/
def roundUpPow2u32 (v : ℕ) : ℕ :=
  (roundCascade ((v + (2 ^ 32 - 1)) % 2 ^ 32) + 1) % 2 ^ 32

/-- The `while (size < map->size) { num_entries *= 2; size = ...; }`
loop shared by `rhmap_grow` and `rhmap_resize` (the doubling is uint32
arithmetic).  Returns the final `(num_entries, size)` pair. -/
def sizeBumpLoop (lf : Lf) (target : ℕ) (n : ℕ) : ℕ → Option (ℕ × ℕ)
  | 0 => none
  | fuel + 1 =>
    let sz := floorMulLf n lf
    if sz < target then sizeBumpLoop lf target (2 * n % 2 ^ 32) fuel
    else some (n, sz)

/-- `rhmap_grow`, returning the internal entry count together with the
outputs `(*count, *alloc_size)`.  Starting entry count: `initial_size`
(or the default 16) on a pristine map, otherwise double the current
count; at least 4; then the capacity-bump loop and the 8-byte-aligned
allocation size. -/
def rhmap_growFull (s : Rhmap) (initial_size fuel : ℕ) : Option (ℕ × ℕ × ℕ) := do
  let lf := effLoadFactor s.load_factor
  let n0 := if s.mask + 1 = 1 then (if initial_size ≠ 0 then initial_size else 16)
            else 2 * (s.mask + 1) % 2 ^ 32
  let n1 := if n0 < 4 then 4 else n0
  let (n, sz) ← sizeBumpLoop lf s.size n1 fuel
  some (n, sz, alignAlloc ((sz + n) * 4))

/-- The entry count recomputation shared by `rhmap_resize` and
`rhmap_rehash`: `v = (uint32_t)((double)size / load_factor - 0.5)`
rounded up to a power of two. -/
def resizeEntryCount (lf : Lf) (size : ℕ) : ℕ :=
  roundUpPow2u32 (truncDivLfSubHalf size lf % 2 ^ 32)

/-- `rhmap_resize`, returning the internal entry count together with the
outputs `(*count, *alloc_size)`. -/
def rhmap_resizeFull (s : Rhmap) (size fuel : ℕ) : Option (ℕ × ℕ × ℕ) := do
  let lf := effLoadFactor s.load_factor
  let n0 := resizeEntryCount lf size
  let n1 := if n0 < 4 then 4 else n0
  let (n, sz) ← sizeBumpLoop lf s.size n1 fuel
  some (n, sz, alignAlloc ((sz + n) * 4))

/-- The reinsertion loop of `rhmap_rehash`: for each old element hash,
drive `rhmap_insert` until it returns 0
(`while (rhmap_insert(&iter, &dummy_ix)) { }`). -/
def reinsertAll (m : Rhmap) : List ℕ → ℕ → Option Rhmap
  | [], _ => some m
  | h :: t, fuel => do
    let (m1, _) ← insertUntilDone m h 0 fuel
    reinsertAll m1 t fuel

/-- `rhmap_rehash(map, count, data)`: recompute the entry count from
`count` and the load factor, point the map at a fresh zeroed `entries`
region of that many words and a `hashes` region of `count` words
(uninitialised memory is modelled as zeros; the code never reads an
uninitialised slot in the scenarios verified here), then reinsert every
old element in index order. -/
def rhmap_rehash (s : Rhmap) (count fuel : ℕ) : Option Rhmap := do
  let n := resizeEntryCount (effLoadFactor s.load_factor) count
  let base : Rhmap :=
    { entries := List.replicate n 0, hashes := List.replicate count 0,
      mask := (n + (2 ^ 32 - 1)) % 2 ^ 32, capacity := count, size := 0,
      load_factor := s.load_factor }
  reinsertAll base (s.hashes.take s.size) fuel

/-- `rhmap_clear`: zero the whole `entries` region (`mask + 1` words) and
reset `size`; on a map whose `entries` region is smaller than `mask + 1`
words (the pristine map) the `memset` writes out of bounds, modelled as
`none`. -/
def rhmap_clear (s : Rhmap) : Option Rhmap :=
  if s.mask + 1 ≤ s.entries.length then
    some { s with size := 0, entries := List.replicate (s.mask + 1) 0 }
  else none

/-- The `empty()` member of the `hash_map` and `hash_set` wrappers in the
inline-variant header (part_005, lines 97 and 325): `return map.size > 0;`. -/
def hashWrapperEmptyP5 (m : Rhmap) : Bool := decide (m.size > 0)

/-- The `empty()` member of `hash_base` in the other wrapper header
(part_004, line 212): `return map.size == 0;`. -/
def hashBaseEmptyP4 (m : Rhmap) : Bool := decide (m.size = 0)

/-- The probe distance of the occupied bucket `b` as the data model
defines it: the inline field `entry >> 28` when it is below 15,
otherwise recomputed from the element's stored hash
(`(bucket - hashes[decoded_index]) mod N`, the specification's rule). -/
def probeOf (s : Rhmap) (b : ℕ) : ℕ :=
  let N := s.mask + 1
  let e := s.entries.getD b 0
  let p := e / 2 ^ 28
  if p < 15 then p
  else (b + N - s.hashes.getD (e % N) 0 % N) % N

/-- The Robin Hood invariant as the specification states it: scanning
forward from any home bucket, the probe distances of the occupied
entries encountered are non-decreasing until the first empty bucket.
Since every bucket is some hash's home bucket, this is equivalent to the
adjacent-pair condition: for every pair of consecutive occupied buckets
`b`, `(b+1) mod N` (a scan starting at home bucket `b` meets both before
meeting any empty bucket), the probe distance may not decrease. -/
def rhInvariantHolds (s : Rhmap) : Bool :=
  let N := s.mask + 1
  (List.range N).all fun b =>
    let e := s.entries.getD b 0
    let e1 := s.entries.getD ((b + 1) % N) 0
    decide (e ≠ 0 ∧ e1 ≠ 0 → probeOf s b ≤ probeOf s ((b + 1) % N))

/-- The true displacement of the occupied bucket `b`: how far `b` is from
the home bucket of the element actually stored there,
`(b - (hashes[decoded_index] mod N)) mod N` (probe distance minus one). -/
def trueDisp (s : Rhmap) (b : ℕ) : ℕ :=
  let N := s.mask + 1
  let e := s.entries.getD b 0
  (b + N - s.hashes.getD (e % N) 0 % N) % N

/-- The local characterisation of Robin Hood ordering (the property the
code's own comment "map entries being sorted by their scan (probe)
distance" refers to, and the property `rhmap_find`'s early exit relies
on): an occupied bucket following an occupied bucket may be displaced at
most one step further than its predecessor, and an occupied bucket
following an empty bucket must be in its home bucket.  This holds in
every state correct Robin Hood insertion can produce. -/
def rhLocalInvariantHolds (s : Rhmap) : Bool :=
  let N := s.mask + 1
  (List.range N).all fun b =>
    let e := s.entries.getD b 0
    let e1 := s.entries.getD ((b + 1) % N) 0
    decide ((e ≠ 0 ∧ e1 ≠ 0 → trueDisp s ((b + 1) % N) ≤ trueDisp s b + 1) ∧
            (e = 0 ∧ e1 ≠ 0 → trueDisp s ((b + 1) % N) = 0))

/-- Insert one fresh element (a key distinct from everything present)
with the given hash: the documented `while (rhmap_insert(..)) { }` loop,
keeping only the state. -/
def insertNew (m : Rhmap) (h : ℕ) : Option Rhmap := (insertUntilDone m h 0 64).map Prod.fst

/-- The state of a map rehashed for 25 elements (N = 32 buckets) after
`k ≤ 14` insertions of fresh elements with hash 0: element `j` sits in
bucket `j` with probe distance `j + 1`. -/
def chainState (k : ℕ) : Rhmap :=
  { entries := (List.range 32).map fun j => if j < k then j + (j + 1) * 2 ^ 28 else 0,
    hashes := List.replicate 25 0, mask := 31, capacity := 25, size := k,
    load_factor := lfZero }

/-- `chainState 14` after one further insertion with hash 13: that
element lands in bucket 14 with probe 2 and becomes element index 14, so
`hashes[14] = 13`. -/
def sC1a : Rhmap :=
  { entries := (List.range 32).map fun j =>
      if j < 14 then j + (j + 1) * 2 ^ 28 else if j = 14 then 14 + 2 * 2 ^ 28 else 0,
    hashes := (List.replicate 25 0).set 14 13, mask := 31, capacity := 25, size := 15,
    load_factor := lfZero }

/-- `sC1a` after one further insertion with hash 0 (element 15): the new
element displaces the hash-13 element from bucket 14 to bucket 15 and is
stored in bucket 14 with its probe field clamped at 15.  This state is
produced by correct Robin Hood behaviour (no clamped probe was ever
resolved). -/
def sC1pre : Rhmap :=
  { entries := (List.range 32).map fun j =>
      if j < 14 then j + (j + 1) * 2 ^ 28
      else if j = 14 then 15 + 15 * 2 ^ 28
      else if j = 15 then 14 + 3 * 2 ^ 28 else 0,
    hashes := (List.replicate 25 0).set 14 13, mask := 31, capacity := 25, size := 16,
    load_factor := lfZero }

/-- `sC1pre` after one further insertion with hash 0x10A (home bucket
10, element 16): scanning reaches the clamped entry at bucket 14, where
the code resolves the probe via `hashes[14]` (the hash of ELEMENT 14,
which is 13) instead of `hashes[15]` (the stored entry decodes to
element 15, whose hash is 0), wrongly displaces it, and finally parks
the displaced element 15 in bucket 16 — 16 buckets past its home. -/
def sC1 : Rhmap :=
  { entries := (List.range 32).map fun j =>
      if j < 14 then j + (j + 1) * 2 ^ 28
      else if j = 14 then 272 + 5 * 2 ^ 28
      else if j = 15 then 14 + 3 * 2 ^ 28
      else if j = 16 then 15 + 3 * 2 ^ 28 else 0,
    hashes := ((List.replicate 25 0).set 14 13).set 16 266, mask := 31, capacity := 25,
    size := 17, load_factor := lfZero }

/-- A pristine map rehashed for 12 elements: N = 16 buckets, capacity
12, all entries empty. -/
def sB16 : Rhmap :=
  { entries := List.replicate 16 0, hashes := List.replicate 12 0, mask := 15,
    capacity := 12, size := 0, load_factor := lfZero }

/-- `sB16` after inserting a fresh element with hash 1. -/
def sB16a : Rhmap :=
  { entries := (List.replicate 16 0).set 1 (2 ^ 28), hashes := (List.replicate 12 0).set 0 1,
    mask := 15, capacity := 12, size := 1, load_factor := lfZero }

/-- `sB16` after inserting fresh elements with hashes 1 and 2. -/
def sB16b : Rhmap :=
  { entries := ((List.replicate 16 0).set 1 (2 ^ 28)).set 2 (2 ^ 28 + 1),
    hashes := ((List.replicate 12 0).set 0 1).set 1 2,
    mask := 15, capacity := 12, size := 2, load_factor := lfZero }

/-- `sB16` after inserting fresh elements with hashes 1, 2 and 3 at
indices 0, 1, 2: each sits in its home bucket with probe 1. -/
def sC8 : Rhmap :=
  { entries := (((List.replicate 16 0).set 1 (2 ^ 28)).set 2 (2 ^ 28 + 1)).set 3 (2 ^ 28 + 2),
    hashes := (((List.replicate 12 0).set 0 1).set 1 2).set 2 3,
    mask := 15, capacity := 12, size := 3, load_factor := lfZero }

/-- The state `rhmap_remove` actually produces when removing element 0
(hash 1, scan 1) from `sC8`: bucket 3 is renamed to element index 0 as
expected, but `hashes[0]` is set to 2 — the hash of the untouched middle
element — rather than to 3, the hash of the swapped last element. -/
def sC8rem : Rhmap :=
  { entries := (((List.replicate 16 0).set 2 (2 ^ 28 + 1)).set 3 (2 ^ 28)),
    hashes := (((List.replicate 12 0).set 0 2).set 1 2).set 2 3,
    mask := 15, capacity := 12, size := 2, load_factor := lfZero }

/-- `sB16` after inserting a fresh element with hash 0xFFFFFFFF: the
entry lands in home bucket 15 and `hashes[0]` receives only the masked
low 28 bits. -/
def sFF : Rhmap :=
  { entries := (List.replicate 16 0).set 15 (2 ^ 28 + (2 ^ 28 - 16)),
    hashes := (List.replicate 12 0).set 0 (2 ^ 28 - 1),
    mask := 15, capacity := 12, size := 1, load_factor := lfZero }

/-- `n` is a power of two. -/
def IsPow2 (n : ℕ) : Prop := ∃ k, n = 2 ^ k

/-! ## Helper lemmas -/

theorem orShift_testBit (x s i : ℕ) :
    (orShift x s).testBit i = (x.testBit i || x.testBit (s + i)) := by
  simp [orShift, Nat.testBit_lor, Nat.testBit_shiftRight]

theorem orShift_cover {y x : ℕ} {W : ℕ}
    (hx : ∀ i d, d ≤ W → y.testBit (i + d) = true → x.testBit i = true)
    (s : ℕ) (hs : s ≤ W + 1) :
    ∀ i d, d ≤ W + s → y.testBit (i + d) = true → (orShift x s).testBit i = true := by
  intro i d hd hy
  rw [orShift_testBit]
  rcases le_or_lt d W with h | h
  · rw [hx i d h hy]
    simp
  · have h1 : y.testBit ((i + s) + (d - s)) = true := by
      rw [show (i + s) + (d - s) = i + d from by omega]
      exact hy
    have h2 := hx (i + s) (d - s) (by omega) h1
    rw [show s + i = i + s from by omega, h2]
    simp

theorem orShift_cover_rev {y x : ℕ} {W : ℕ}
    (hx : ∀ i, x.testBit i = true → ∃ d, d ≤ W ∧ y.testBit (i + d) = true)
    (s : ℕ) :
    ∀ i, (orShift x s).testBit i = true → ∃ d, d ≤ W + s ∧ y.testBit (i + d) = true := by
  intro i h
  rw [orShift_testBit] at h
  rcases Bool.or_eq_true_iff.mp h with h1 | h2
  · obtain ⟨d, hd, hy⟩ := hx i h1
    exact ⟨d, by omega, hy⟩
  · obtain ⟨d, hd, hy⟩ := hx (s + i) h2
    refine ⟨s + d, by omega, ?_⟩
    rw [show i + (s + d) = s + i + d from by omega]
    exact hy

theorem roundCascade_cover (w : ℕ) :
    ∀ i d, d ≤ 31 → w.testBit (i + d) = true → (roundCascade w).testBit i = true := by
  have h0 : ∀ i d, d ≤ 0 → w.testBit (i + d) = true → w.testBit i = true := by
    intro i d hd hy
    have hd0 : d = 0 := by omega
    subst hd0
    simpa using hy
  have h1 := orShift_cover h0 1 (by omega)
  have h2 := orShift_cover h1 2 (by omega)
  have h3 := orShift_cover h2 4 (by omega)
  have h4 := orShift_cover h3 8 (by omega)
  have h5 := orShift_cover h4 16 (by omega)
  exact fun i d hd hy => h5 i d (by omega) hy

theorem roundCascade_cover_rev (w : ℕ) :
    ∀ i, (roundCascade w).testBit i = true → ∃ d, d ≤ 31 ∧ w.testBit (i + d) = true := by
  have h0 : ∀ i, w.testBit i = true → ∃ d, d ≤ 0 ∧ w.testBit (i + d) = true := by
    intro i h
    exact ⟨0, le_refl 0, by simpa using h⟩
  have h1 := orShift_cover_rev h0 1
  have h2 := orShift_cover_rev h1 2
  have h3 := orShift_cover_rev h2 4
  have h4 := orShift_cover_rev h3 8
  have h5 := orShift_cover_rev h4 16
  exact fun i h => (h5 i h).imp fun d ⟨hd, hy⟩ => ⟨by omega, hy⟩

theorem testBit_log2_self {w : ℕ} (hw : 1 ≤ w) : w.testBit w.log2 = true := by
  rw [Nat.testBit_to_div_mod]
  have hle : 2 ^ w.log2 ≤ w := Nat.log2_self_le (by omega)
  have hlt : w < 2 ^ (w.log2 + 1) := Nat.lt_log2_self
  rw [pow_succ] at hlt
  have hdiv : w / 2 ^ w.log2 = 1 := Nat.div_eq_of_lt_le (k := 1) (by omega) (by omega)
  simp [hdiv]

theorem roundCascade_eq {w : ℕ} (h1 : 1 ≤ w) (h2 : w < 2 ^ 32) :
    roundCascade w = 2 ^ (w.log2 + 1) - 1 := by
  have hm : w.log2 ≤ 31 := by
    have := (Nat.log2_lt (by omega)).mpr h2
    omega
  apply Nat.eq_of_testBit_eq
  intro i
  rw [Nat.testBit_two_pow_sub_one]
  rcases le_or_lt i w.log2 with hi | hi
  · have hset := roundCascade_cover w i (w.log2 - i) (by omega)
      (by rw [show i + (w.log2 - i) = w.log2 from by omega]; exact testBit_log2_self h1)
    have hlt : i < w.log2 + 1 := by omega
    simp [hset, hlt]
  · cases hc : (roundCascade w).testBit i with
    | false =>
      have hge : ¬ (i < w.log2 + 1) := by omega
      simp [hge]
    | true =>
      obtain ⟨d, hd, hy⟩ := roundCascade_cover_rev w i hc
      have hno : w.testBit (i + d) = false :=
        Nat.testBit_lt_two_pow
          (lt_of_lt_of_le Nat.lt_log2_self (Nat.pow_le_pow_right (by omega) (by omega)))
      rw [hno] at hy
      cases hy

theorem roundCascade_zero : roundCascade 0 = 0 := by decide

theorem roundUpPow2u32_pow2 (v : ℕ) :
    roundUpPow2u32 v = 0 ∨ IsPow2 (roundUpPow2u32 v) := by
  rw [roundUpPow2u32]
  set w := (v + (2 ^ 32 - 1)) % 2 ^ 32 with hw
  have hwlt : w < 2 ^ 32 := Nat.mod_lt _ (by omega)
  rcases Nat.eq_zero_or_pos w with hw0 | hw1
  · rw [hw0, roundCascade_zero]
    right
    exact ⟨0, by decide⟩
  · rw [roundCascade_eq hw1 hwlt]
    have hm : w.log2 ≤ 31 := by
      have := (Nat.log2_lt (by omega)).mpr hwlt
      omega
    have hpos : 1 ≤ 2 ^ (w.log2 + 1) := Nat.one_le_two_pow
    rw [Nat.sub_add_cancel hpos]
    rcases Nat.lt_or_ge w.log2 31 with hlt | hge
    · right
      rw [Nat.mod_eq_of_lt (by
        have hexp : w.log2 + 1 < 32 := by omega
        exact Nat.pow_lt_pow_right (by omega) hexp)]
      exact ⟨w.log2 + 1, rfl⟩
    · left
      have h31 : w.log2 = 31 := by omega
      rw [h31]
      decide

theorem sizeBumpLoop_zero_none (lf : Lf) (target : ℕ) (ht : 1 ≤ target) :
    ∀ fuel, sizeBumpLoop lf target 0 fuel = none := by
  intro fuel
  induction fuel with
  | zero => rfl
  | succ fuel ih =>
    rw [sizeBumpLoop]
    have h0 : floorMulLf 0 lf = 0 := by simp [floorMulLf]
    rw [h0]
    simp only [if_pos (by omega : 0 < target)]
    simpa using ih

theorem sizeBumpLoop_props (lf : Lf) (target : ℕ) :
    ∀ fuel n n2 sz, IsPow2 n → 4 ≤ n →
    sizeBumpLoop lf target n fuel = some (n2, sz) →
    IsPow2 n2 ∧ 4 ≤ n2 ∧ sz = floorMulLf n2 lf ∧ target ≤ sz := by
  intro fuel
  induction fuel with
  | zero => intro n n2 sz _ _ h; cases h
  | succ fuel ih =>
    intro n n2 sz hp h4 h
    rw [sizeBumpLoop] at h
    split at h
    · rename_i hlt
      have ht : 1 ≤ target := by omega
      obtain ⟨k, rfl⟩ := hp
      rcases Nat.lt_or_ge k 31 with hk | hk
      · have hmod : 2 * 2 ^ k % 2 ^ 32 = 2 ^ (k + 1) := by
          rw [show 2 * 2 ^ k = 2 ^ (k + 1) from by ring]
          exact Nat.mod_eq_of_lt (Nat.pow_lt_pow_right (by omega) (by omega))
        rw [hmod] at h
        exact ih (2 ^ (k + 1)) n2 sz ⟨k + 1, rfl⟩
          (le_trans h4 (Nat.pow_le_pow_right (by omega) (by omega))) h
      · have hmod : 2 * 2 ^ k % 2 ^ 32 = 0 := by
          rw [show 2 * 2 ^ k = 2 ^ (k + 1) from by ring]
          exact Nat.mod_eq_zero_of_dvd (pow_dvd_pow 2 (by omega))
        rw [hmod, sizeBumpLoop_zero_none lf target ht fuel] at h
        cases h
    · rename_i hge
      injection h with h1
      injection h1 with hn hsz
      subst hn
      subst hsz
      exact ⟨hp, h4, rfl, by omega⟩

theorem max4_pow2 {n0 : ℕ} (h : n0 = 0 ∨ IsPow2 n0) :
    IsPow2 (if n0 < 4 then 4 else n0) ∧ 4 ≤ (if n0 < 4 then 4 else n0) := by
  split
  · exact ⟨⟨2, rfl⟩, le_refl 4⟩
  · rename_i h4
    rcases h with h0 | hp
    · omega
    · exact ⟨hp, by omega⟩

theorem grow_start_pow2 {m initial : ℕ} (hm : IsPow2 m) (hinit : initial = 0 ∨ IsPow2 initial) :
    (if m = 1 then (if initial ≠ 0 then initial else 16) else 2 * m % 2 ^ 32) = 0 ∨
    IsPow2 (if m = 1 then (if initial ≠ 0 then initial else 16) else 2 * m % 2 ^ 32) := by
  split
  · split
    · rename_i hi0
      rcases hinit with h | h
      · omega
      · exact Or.inr h
    · exact Or.inr ⟨4, rfl⟩
  · obtain ⟨k, rfl⟩ := hm
    rcases Nat.lt_or_ge k 31 with hk | hk
    · right
      rw [show 2 * 2 ^ k = 2 ^ (k + 1) from by ring,
        Nat.mod_eq_of_lt (Nat.pow_lt_pow_right (by omega) (by omega))]
      exact ⟨k + 1, rfl⟩
    · left
      rw [show 2 * 2 ^ k = 2 ^ (k + 1) from by ring]
      exact Nat.mod_eq_zero_of_dvd (pow_dvd_pow 2 (by omega))

theorem alignAlloc_props {x : ℕ} (hb : x + 7 < 2 ^ 32) :
    alignAlloc x = (x + 7) / 8 * 8 ∧ 8 ∣ alignAlloc x ∧ x ≤ alignAlloc x ∧ alignAlloc x < x + 8 := by
  rw [alignAlloc, Nat.mod_eq_of_lt hb]
  refine ⟨rfl, ⟨(x + 7) / 8, by ring⟩, ?_, ?_⟩ <;> omega

theorem notPow2_5 : ¬ IsPow2 5 := by
  rintro ⟨k, hk⟩
  have hlt : k < 5 := by
    have := Nat.lt_two_pow k
    omega
  interval_cases k <;> norm_num at hk

/-! ## The claims -/

/-- C3: the claim says `find` on a capacity-0 (pristine, zero-initialised)
map returns false immediately without touching `entries`.  The code only
short-circuits when `mask == ~0u`, but the pristine map has `mask = 0`,
so `find` dereferences the null `entries` array (`entries[hash & 0]`):
in the model every such call ends in `none` (crash), never in the claimed
`some none` (return 0). -/
theorem c3_find_capacity_zero_code_bug :
    ∀ hash scan fuel : ℕ, rhmap_find rhmap_init hash scan fuel = none := by
  intro hash scan fuel
  cases fuel <;> simp [rhmap_find, rhmap_init, rhmap_findLoop]

/-- C1: the claim states that after every public operation (from a usable
state) the Robin Hood invariant holds — probe distances non-decreasing
along any scan from a home bucket until the first empty bucket.  The
concrete public-API trace `rehash(25); 14 × insert(0); insert(13);
insert(0); insert(0x10A)` refutes it: after the final insert even the
local Robin Hood ordering (`rhLocalInvariantHolds`, the property the
code's own header comment promises) is violated, because the
displacement loop of `rhmap_insert` resolves the clamped probe field at
bucket 14 through `hashes[14]` (bucket-indexed) instead of the entry's
decoded element index.  The state `sC1pre` before that insert satisfies
the local ordering; `sC1` after it does not.  (The claim's literal
"non-decreasing" phrasing, `rhInvariantHolds`, is additionally false
even at the benign state `sC1pre`: a fresh home chain may legally start
with a smaller probe right after a longer chain.) -/
theorem c1_robin_hood_invariant_code_bug :
    rhmap_rehash rhmap_init 25 64 = some (chainState 0) ∧
    (List.range 14).all
      (fun k => decide (insertNew (chainState k) 0 = some (chainState (k + 1)))) = true ∧
    insertNew (chainState 14) 13 = some sC1a ∧
    insertNew sC1a 0 = some sC1pre ∧
    insertNew sC1pre 266 = some sC1 ∧
    rhLocalInvariantHolds sC1pre = true ∧
    rhInvariantHolds sC1pre = false ∧
    rhLocalInvariantHolds sC1 = false ∧
    rhInvariantHolds sC1 = false := by
  decide

/-- C2 (counterexample): the claim says the full 32-bit caller hash is
stored in `hashes[i]`.  Inserting hash `0xFFFFFFFF` into an empty
rehashed table stores `0x0FFFFFFF` — the hash masked to its low 28 bits
— at the fresh index 0, not the full word. -/
theorem c2_full_hash_stored_counterexample :
    insertUntilDone sB16 4294967295 0 64 = some (sFF, 0) ∧
    sFF.hashes.getD 0 0 = 268435455 ∧ (268435455 : ℕ) ≠ 4294967295 := by
  decide

/-- C2 (amended): a successful insert of hash `h` returns the fresh
index `i = size`, stores exactly `h & 0x0fffffff` (the low 28 bits) in
`hashes[size]`, leaving every other `hashes` slot unchanged (so the
masked word persists across subsequent inserts), and bumps `size`. -/
theorem c2_insert_stores_masked_hash (s s1 : Rhmap) (hash scan fuel i : ℕ)
    (h : rhmap_insert s hash scan fuel = some (s1, InsRes.inserted i)) :
    i = s.size ∧ s1.hashes = s.hashes.set s.size (hash % 2 ^ 28) ∧ s1.size = s.size + 1 := by
  rw [rhmap_insert, rhmap_insertCore] at h
  cases hl : insertScanLoop insertResolveCode (s.mask + 1) (hash % 2 ^ 28)
      (hash % 2 ^ 28 / (s.mask + 1) * (s.mask + 1) + s.size) s.hashes s.entries scan fuel with
  | none => rw [hl] at h; simp at h
  | some out =>
    rw [hl] at h
    simp only [Option.bind_eq_bind, Option.some_bind] at h
    cases out with
    | found sc idx => simp at h
    | placed es =>
      simp only [Option.some.injEq, Prod.mk.injEq, InsRes.inserted.injEq] at h
      obtain ⟨hs1, hi⟩ := h
      subst hs1; subst hi
      exact ⟨rfl, rfl, rfl⟩
    | displaced es ins1 sc ix =>
      dsimp only at h
      cases hsf : insertShiftLoop insertResolveCode (s.mask + 1) s.hashes ins1 sc ix es fuel with
      | none => rw [hsf] at h; simp at h
      | some es1 =>
        rw [hsf] at h
        simp only [Option.some_bind, Option.some.injEq, Prod.mk.injEq, InsRes.inserted.injEq] at h
        obtain ⟨hs1, hi⟩ := h
        subst hs1; subst hi
        exact ⟨rfl, rfl, rfl⟩

/-- C2 (witness): the amended theorem applied to the concrete insert of
hash `0xFFFFFFFF` into `sB16`. -/
theorem c2_insert_stores_masked_hash_witness :
    0 = sB16.size ∧ sFF.hashes = sB16.hashes.set sB16.size (4294967295 % 2 ^ 28) ∧
    sFF.size = sB16.size + 1 :=
  c2_insert_stores_masked_hash sB16 sFF 4294967295 0 64 0 (by decide)

/-- C4: the claim says every recomputation of a clamped probe distance
indexes `hashes` by the entry's decoded element index.  The shift-back
loop of `rhmap_remove` does (`hashes[entry & mask]`), but both
displacement loops of `rhmap_insert` read `hashes[ix]` — indexed by the
BUCKET position.  At the reachable state `sC1pre`, bucket 14 holds the
clamped entry `0xF000000F` decoding to element 15 (hash 0): the code's
resolution reads `hashes[14] = 13` (element 14's hash) and yields probe
1, the specified resolution reads `hashes[15] = 0` and yields 14, and an
insert with hash 0x10A consequently produces a different table than the
specified resolution would. -/
theorem c4_clamped_probe_resolution_code_bug :
    sC1pre.entries.getD 14 0 = 4026531855 ∧
    insertResolveCode 32 sC1pre.hashes 14 4026531855 = some 1 ∧
    insertResolveSpec 32 sC1pre.hashes 14 4026531855 = some 14 ∧
    rhmap_insert sC1pre 266 0 64 ≠ rhmap_insertSpecResolve sC1pre 266 0 64 := by
  decide

/-- C5 (counterexample): the claim says `alloc_size = align_up((N +
capacity) * 4, 16)`, always a multiple of 16.  Growing the rehashed
16-bucket map `sB16` yields `N = 32`, `count = 25` and `alloc_size =
232`, which is not a multiple of 16 (the claimed 16-byte rounding of
`(25 + 32) * 4 = 228` would be 240). -/
theorem c5_alloc_align_counterexample :
    rhmap_growFull sB16 0 64 = some (32, 25, 232) ∧
    ¬ (16 ∣ 232) ∧ 16 * (((25 + 32) * 4 + 15) / 16) = 240 := by
  decide

/-- C5 (amended): both sizers return `alloc_size = ((count + N) * 4 + 7)
& ~7u`, i.e. `(N + capacity) * 4` rounded UP to a multiple of 8 (the
code's own header comment: "aligned to 8 bytes"); the result is always a
multiple of 8 and within 7 bytes above the unpadded size. -/
theorem c5_alloc_align8_amended (s : Rhmap) (initial z fuel : ℕ) (n1 c1 a1 n2 c2 a2 : ℕ)
    (hg : rhmap_growFull s initial fuel = some (n1, c1, a1))
    (hr : rhmap_resizeFull s z fuel = some (n2, c2, a2))
    (hb1 : (c1 + n1) * 4 + 7 < 2 ^ 32) (hb2 : (c2 + n2) * 4 + 7 < 2 ^ 32) :
    (a1 = ((c1 + n1) * 4 + 7) / 8 * 8 ∧ 8 ∣ a1 ∧ (c1 + n1) * 4 ≤ a1 ∧ a1 < (c1 + n1) * 4 + 8) ∧
    (a2 = ((c2 + n2) * 4 + 7) / 8 * 8 ∧ 8 ∣ a2 ∧ (c2 + n2) * 4 ≤ a2 ∧ a2 < (c2 + n2) * 4 + 8) := by
  constructor
  · rw [rhmap_growFull] at hg
    cases hbl : sizeBumpLoop (effLoadFactor s.load_factor) s.size
        (if (if s.mask + 1 = 1 then (if initial ≠ 0 then initial else 16)
             else 2 * (s.mask + 1) % 2 ^ 32) < 4 then 4
         else (if s.mask + 1 = 1 then (if initial ≠ 0 then initial else 16)
               else 2 * (s.mask + 1) % 2 ^ 32)) fuel with
    | none => rw [hbl] at hg; simp at hg
    | some p =>
      obtain ⟨n, sz⟩ := p
      rw [hbl] at hg
      simp only [Option.bind_eq_bind, Option.some_bind, Option.some.injEq, Prod.mk.injEq] at hg
      obtain ⟨hn, hc, ha⟩ := hg
      subst hn; subst hc; subst ha
      exact alignAlloc_props hb1
  · rw [rhmap_resizeFull] at hr
    cases hbl : sizeBumpLoop (effLoadFactor s.load_factor) s.size
        (if resizeEntryCount (effLoadFactor s.load_factor) z < 4 then 4
         else resizeEntryCount (effLoadFactor s.load_factor) z) fuel with
    | none => rw [hbl] at hr; simp at hr
    | some p =>
      obtain ⟨n, sz⟩ := p
      rw [hbl] at hr
      simp only [Option.bind_eq_bind, Option.some_bind, Option.some.injEq, Prod.mk.injEq] at hr
      obtain ⟨hn, hc, ha⟩ := hr
      subst hn; subst hc; subst ha
      exact alignAlloc_props hb2

/-- C5 (witness): the amended theorem at the concrete grow and resize of
`sB16`. -/
theorem c5_alloc_align8_amended_witness :
    (232 = ((25 + 32) * 4 + 7) / 8 * 8 ∧ 8 ∣ 232 ∧ (25 + 32) * 4 ≤ 232 ∧
      232 < (25 + 32) * 4 + 8) ∧
    (112 = ((12 + 16) * 4 + 7) / 8 * 8 ∧ 8 ∣ 112 ∧ (12 + 16) * 4 ≤ 112 ∧
      112 < (12 + 16) * 4 + 8) :=
  c5_alloc_align8_amended sB16 0 10 64 32 25 232 16 12 112
    (by decide) (by decide) (by decide) (by decide)

/-- C6 (counterexample): the claim says the entry count `N` derived by
the sizer is always a power of two with `N ≥ 4`.  `rhmap_grow` on a
pristine map with `initial_size = 5` uses 5 as the entry count without
rounding: it returns count `⌊5·0.8f⌋ = 4` and `alloc_size = 40` with the
internal `N = 5`, which is not a power of two. -/
theorem c6_sizer_counterexample :
    rhmap_growFull rhmap_init 5 64 = some (5, 4, 40) ∧ ¬ IsPow2 5 :=
  ⟨by decide, notPow2_5⟩

/-- C6 (amended): whenever the sizers complete, `count = ⌊N ·
load_factor⌋` and `count ≥ size` (the doubling loop re-expands until the
capacity accommodates the current size, also after a load-factor
reduction); the entry count `N` is a power of two ≥ 4 for `rhmap_resize`
always, and for `rhmap_grow` provided the current entry count `mask + 1`
is a power of two and a nonzero `initial_size` is itself a power of
two. -/
theorem c6_sizer_amended (s : Rhmap) (initial z fuel : ℕ) (n1 c1 a1 n2 c2 a2 : ℕ)
    (hmask : IsPow2 (s.mask + 1)) (hinit : initial = 0 ∨ IsPow2 initial)
    (hg : rhmap_growFull s initial fuel = some (n1, c1, a1))
    (hr : rhmap_resizeFull s z fuel = some (n2, c2, a2)) :
    (IsPow2 n1 ∧ 4 ≤ n1 ∧ c1 = floorMulLf n1 (effLoadFactor s.load_factor) ∧ s.size ≤ c1) ∧
    (IsPow2 n2 ∧ 4 ≤ n2 ∧ c2 = floorMulLf n2 (effLoadFactor s.load_factor) ∧ s.size ≤ c2) := by
  constructor
  · rw [rhmap_growFull] at hg
    cases hbl : sizeBumpLoop (effLoadFactor s.load_factor) s.size
        (if (if s.mask + 1 = 1 then (if initial ≠ 0 then initial else 16)
             else 2 * (s.mask + 1) % 2 ^ 32) < 4 then 4
         else (if s.mask + 1 = 1 then (if initial ≠ 0 then initial else 16)
               else 2 * (s.mask + 1) % 2 ^ 32)) fuel with
    | none => rw [hbl] at hg; simp at hg
    | some p =>
      obtain ⟨n, sz⟩ := p
      rw [hbl] at hg
      simp only [Option.bind_eq_bind, Option.some_bind, Option.some.injEq, Prod.mk.injEq] at hg
      obtain ⟨hn, hc, ha⟩ := hg
      subst hn; subst hc
      obtain ⟨hpw, h4⟩ := max4_pow2 (grow_start_pow2 hmask hinit)
      exact sizeBumpLoop_props _ _ fuel _ _ _ hpw h4 hbl
  · rw [rhmap_resizeFull] at hr
    cases hbl : sizeBumpLoop (effLoadFactor s.load_factor) s.size
        (if resizeEntryCount (effLoadFactor s.load_factor) z < 4 then 4
         else resizeEntryCount (effLoadFactor s.load_factor) z) fuel with
    | none => rw [hbl] at hr; simp at hr
    | some p =>
      obtain ⟨n, sz⟩ := p
      rw [hbl] at hr
      simp only [Option.bind_eq_bind, Option.some_bind, Option.some.injEq, Prod.mk.injEq] at hr
      obtain ⟨hn, hc, ha⟩ := hr
      subst hn; subst hc
      obtain ⟨hpw, h4⟩ := max4_pow2 (by
        rcases roundUpPow2u32_pow2 (truncDivLfSubHalf z (effLoadFactor s.load_factor) % 2 ^ 32)
          with h | h
        · exact Or.inl h
        · exact Or.inr h)
      exact sizeBumpLoop_props _ _ fuel _ _ _ hpw h4 hbl

/-- C6 (witness): the amended theorem at the concrete grow and resize of
the pristine map. -/
theorem c6_sizer_amended_witness :
    (IsPow2 16 ∧ 4 ≤ 16 ∧ 12 = floorMulLf 16 (effLoadFactor rhmap_init.load_factor) ∧
      rhmap_init.size ≤ 12) ∧
    (IsPow2 16 ∧ 4 ≤ 16 ∧ 12 = floorMulLf 16 (effLoadFactor rhmap_init.load_factor) ∧
      rhmap_init.size ≤ 12) :=
  c6_sizer_amended rhmap_init 0 10 64 16 12 112 16 12 112
    ⟨0, rfl⟩ (Or.inl rfl) (by decide) (by decide)

/-- C7 (counterexample): the claim says an unset (zero) load factor
behaves as 0.75.  The code's default is the float `0.8f`: growing a
pristine map to 32 entries with unset load factor yields capacity 25,
whereas a load factor of exactly 3/4 yields 24. -/
theorem c7_default_load_factor_counterexample :
    rhmap_init.load_factor.num = 0 ∧
    (rhmap_growFull rhmap_init 32 64).map (fun r => r.2.1) = some 25 ∧
    (rhmap_growFull { rhmap_init with load_factor := ⟨3, 4⟩ } 32 64).map (fun r => r.2.1) =
      some 24 ∧ (25 : ℕ) ≠ 24 := by
  decide

/-- C7 (amended): a map whose load factor is unset (the float compares
equal to 0.0f, i.e. zero numerator) behaves in `rhmap_grow`,
`rhmap_resize` and the entry-count computation of `rhmap_rehash` exactly
as if its load factor were the default `0.8f` (`13421773/2^24`). -/
theorem c7_default_load_factor_amended (s : Rhmap) (hlf : s.load_factor.num = 0)
    (initial z c fuel : ℕ) :
    rhmap_growFull s initial fuel =
      rhmap_growFull { s with load_factor := defaultLoadFactor } initial fuel ∧
    rhmap_resizeFull s z fuel =
      rhmap_resizeFull { s with load_factor := defaultLoadFactor } z fuel ∧
    resizeEntryCount (effLoadFactor s.load_factor) c = resizeEntryCount defaultLoadFactor c := by
  have he : effLoadFactor s.load_factor = defaultLoadFactor := by
    rw [effLoadFactor, if_pos hlf]
  have hd : effLoadFactor defaultLoadFactor = defaultLoadFactor := by
    rw [effLoadFactor, if_neg (by decide)]
  refine ⟨?_, ?_, by rw [he]⟩
  · rw [rhmap_growFull, rhmap_growFull, he]
    simp only [hd]
  · rw [rhmap_resizeFull, rhmap_resizeFull, he]
    simp only [hd]

/-- C7 (witness): the amended theorem at the pristine map. -/
theorem c7_default_load_factor_amended_witness :
    rhmap_growFull rhmap_init 0 64 =
      rhmap_growFull { rhmap_init with load_factor := defaultLoadFactor } 0 64 ∧
    rhmap_resizeFull rhmap_init 10 64 =
      rhmap_resizeFull { rhmap_init with load_factor := defaultLoadFactor } 10 64 ∧
    resizeEntryCount (effLoadFactor rhmap_init.load_factor) 12 =
      resizeEntryCount defaultLoadFactor 12 :=
  c7_default_load_factor_amended rhmap_init rfl 0 10 12 64

/-- C8: the claim says the tail swap stores the swapped (old last)
element's hash in `hashes[removed index]` and scans from that hash's
home bucket.  In the reachable three-element state `sC8` (hashes 1, 2, 3
at indices 0, 1, 2), removing element 0 must move element 2 (hash 3)
into index 0 — but the code reads `hashes[map->size - 1]` after the size
decrement, which is `hashes[1] = 2`, the hash of the UNTOUCHED middle
element: the entry is renamed correctly, yet `hashes[0]` ends up 2
instead of 3, breaking the `entry <=> hash` mapping the code's own
comment promises to preserve. -/
theorem c8_remove_tail_swap_code_bug :
    rhmap_rehash rhmap_init 12 64 = some sB16 ∧
    insertNew sB16 1 = some sB16a ∧
    insertNew sB16a 2 = some sB16b ∧
    insertNew sB16b 3 = some sC8 ∧
    sC8.hashes.getD 2 0 = 3 ∧
    rhmap_remove sC8 1 1 64 = some (sC8rem, some (0, 2)) ∧
    sC8rem.entries.getD 3 0 % 16 = 0 ∧
    sC8rem.hashes.getD 0 0 = 2 ∧ (2 : ℕ) ≠ 3 := by
  decide

/-- C9: the claim says the container wrappers' `empty()` returns true
iff `size == 0`.  The `hash_map`/`hash_set` wrappers of the inline
header return `map.size > 0` — on an empty map (`size = 0`) they return
false where the claim requires true (the `hash_base` wrapper of the
other header returns `map.size == 0` as specified). -/
theorem c9_empty_inverted_code_bug :
    hashWrapperEmptyP5 rhmap_init = false ∧ rhmap_init.size = 0 ∧
    hashBaseEmptyP4 rhmap_init = true := by
  decide

/-- C10: a completed `rhmap_remove` decrements `size` by exactly one; it
returns 1 (`some (dst, src)`) iff the removed element's decoded index is
strictly below the post-decrement size, and in that case writes `*dst =`
the removed index and `*src =` the post-decrement size (the index of the
previous last element); when it returns 0 it writes neither output
(`none`). -/
theorem c10_remove_outputs (s s1 : Rhmap) (hash scan fuel : ℕ) (r : Option (ℕ × ℕ)) (e0 : ℕ)
    (hrm : rhmap_remove s hash scan fuel = some (s1, r))
    (he : s.entries[(hash + scan + (2 ^ 32 - 1)) % (s.mask + 1)]? = some e0)
    (hsz : 1 ≤ s.size) (hsz2 : s.size < 2 ^ 32) :
    s1.size = s.size - 1 ∧
    (r ≠ none ↔ e0 % (s.mask + 1) < s.size - 1) ∧
    (e0 % (s.mask + 1) < s.size - 1 → r = some (e0 % (s.mask + 1), s.size - 1)) := by
  rw [rhmap_remove, he] at hrm
  have hsz1 : (s.size + (2 ^ 32 - 1)) % 2 ^ 32 = s.size - 1 := by omega
  simp only [Option.bind_eq_bind, Option.some_bind, hsz1] at hrm
  cases hsl : removeShiftLoop (s.mask + 1) s.hashes
      ((hash + scan + (2 ^ 32 - 1)) % (s.mask + 1)) s.entries fuel with
  | none => rw [hsl] at hrm; simp at hrm
  | some p =>
    obtain ⟨es1, ixEnd⟩ := p
    rw [hsl] at hrm
    simp only [Option.some_bind] at hrm
    split at hrm
    · rename_i hlt
      cases hh : s.hashes[(s.size - 1 + (2 ^ 32 - 1)) % 2 ^ 32]? with
      | none => rw [hh] at hrm; simp at hrm
      | some swapHash =>
        rw [hh] at hrm
        simp only [Option.some_bind] at hrm
        cases hf : findEntryWithIndex (s.mask + 1) (s.size - 1) (es1.set ixEnd 0)
            (swapHash % (s.mask + 1)) fuel with
        | none => rw [hf] at hrm; simp at hrm
        | some ixF =>
          rw [hf] at hrm
          simp only [Option.some_bind] at hrm
          cases hef : (es1.set ixEnd 0)[ixF]? with
          | none => rw [hef] at hrm; simp at hrm
          | some eF =>
            rw [hef] at hrm
            simp only [Option.some_bind, Option.some.injEq, Prod.mk.injEq] at hrm
            obtain ⟨hs1, hr⟩ := hrm
            subst hs1
            refine ⟨rfl, ?_, ?_⟩
            · simp [← hr, hlt]
            · intro _; rw [← hr]
    · rename_i hge
      simp only [Option.some.injEq, Prod.mk.injEq] at hrm
      obtain ⟨hs1, hr⟩ := hrm
      subst hs1
      refine ⟨rfl, ?_, ?_⟩
      · rw [← hr]; simp; omega
      · intro hlt; omega

/-- C10 (witness): the theorem at the concrete removal of element 0
(hash 1) from the three-element state `sC8`. -/
theorem c10_remove_outputs_witness :
    sC8rem.size = sC8.size - 1 ∧
    (some (0, 2) ≠ (none : Option (ℕ × ℕ)) ↔ 2 ^ 28 % (sC8.mask + 1) < sC8.size - 1) ∧
    (2 ^ 28 % (sC8.mask + 1) < sC8.size - 1 →
      some (0, 2) = some (2 ^ 28 % (sC8.mask + 1), sC8.size - 1)) :=
  c10_remove_outputs sC8 sC8rem 1 1 64 (some (0, 2)) (2 ^ 28)
    (by decide) (by decide) (by decide) (by decide)
